import Mathlib

/-!
Verification development for the digital-voting repository.

Shallow embedding of the vote protocol (`subcrates/protocol`), the two
blockchain implementations (`subcrates/blockchain` and `src/chain`), the
batcher (`src/batcher`), the symmetric-encryption wrapper
(`subcrates/crypto/src/encryption/symmetric.rs`) and the node's HTTP vote
handler (`src/api/server.rs`).

Cryptographic library primitives (RSA blind signatures, Ed25519, SHA-256 /
BLAKE3, PBKDF2, ChaCha20-Poly1305) are library calls, not repository code;
they enter the embedding as function parameters, and theorems that depend
on their contracts take those contracts as explicit hypotheses.
-/

set_option autoImplicit false

namespace DigitalVoting

/-- Binary-safe byte strings: the representation of all cryptographic values
(`Vec<u8>` newtypes produced by the `crypto_key!` macro). -/
abbrev Bytes := List Nat

/-- Model of `chrono::DateTime<chrono::Utc>` (`protocol::timestamp::Timestamp`):
whole seconds since the epoch plus the sub-second nanosecond part.
`chrono` orders timestamps lexicographically on this pair. -/
structure Timestamp where
  secs : Int
  nanos : Nat
deriving DecidableEq, Repr, Inhabited

namespace Timestamp

/-- Boolean `<=` on timestamps (the order used by `chrono`). -/
def leb (a b : Timestamp) : Bool :=
  decide (a.secs < b.secs) || (decide (a.secs = b.secs) && decide (a.nanos ≤ b.nanos))

/-- Boolean `<` on timestamps (the order used by `chrono`). -/
def ltb (a b : Timestamp) : Bool :=
  decide (a.secs < b.secs) || (decide (a.secs = b.secs) && decide (a.nanos < b.nanos))

theorem leb_ltb_total (a b : Timestamp) : leb a b = false ↔ ltb b a = true := by
  cases a; cases b
  simp only [leb, ltb, Bool.or_eq_false_iff, Bool.and_eq_false_iff, Bool.or_eq_true,
    Bool.and_eq_true, decide_eq_false_iff_not, decide_eq_true_eq]
  omega

end Timestamp

/-- Model of `protocol::timestamp::Limits`. -/
structure Limits where
  timestamp_lower_limit : Timestamp
  timestamp_upper_limit : Timestamp
deriving DecidableEq, Repr

namespace Limits

/-- `Limits::verify`: `timestamp >= self.timestamp_lower_limit && timestamp <= self.timestamp_upper_limit`. -/
def verify (l : Limits) (timestamp : Timestamp) : Bool :=
  Timestamp.leb l.timestamp_lower_limit timestamp &&
    Timestamp.leb timestamp l.timestamp_upper_limit

end Limits

/-- Model of `protocol::vote::Error`. -/
inductive VoteError
  | accessTokenVerification
  | signatureVerification
  | timestampSerialization
  | invalidTimestamp (t : Timestamp)
deriving DecidableEq, Repr

/-- Outcome of `Vote::verify`. Rust functions either return `Result` or abort the
process; `indexOutOfBounds i` models the panic raised by the slice indexing
`access_token_verifiers[i]` when `i` is past the end of the slice. -/
inductive VerifyResult
  | ok
  | err (e : VoteError)
  | indexOutOfBounds (i : Nat)
deriving DecidableEq, Repr

/-- Little-endian byte encoding of a natural number, `k` bytes wide. -/
def natToLEBytes : Nat → Nat → Bytes
  | 0, _ => []
  | k + 1, n => (n % 256) :: natToLEBytes k (n / 256)

/-- Little-endian byte encoding of a machine integer, `k` bytes wide (two's complement). -/
def intToLEBytes (k : Nat) (i : Int) : Bytes :=
  natToLEBytes k ((i % (2 ^ (8 * k))).toNat)

/-- Model of `bincode::serialize(&timestamp)`: a deterministic binary encoding of
the timestamp that keeps both the seconds and the nanoseconds.  The claims only
use that the encoding is a deterministic function of the timestamp and keeps
the nanosecond part. -/
def encodeTimestamp (t : Timestamp) : Bytes :=
  intToLEBytes 8 t.secs ++ natToLEBytes 4 t.nanos

/-- Model of `digital_sign::Signer`: a key pair presented through the two
operations `Vote::new` uses, `get_public_key` and `sign`. -/
structure Signer where
  get_public_key : Bytes
  sign : Bytes → Bytes

/-- Model of `protocol::vote::Vote`.  `CandidateId = u8` is modelled as a `Nat`
reduced mod 256 where its bytes matter. -/
structure Vote where
  public_key : Bytes
  candidate : Nat
  timestamp : Timestamp
  access_tokens : List Bytes
  signature : Bytes
deriving DecidableEq, Repr

namespace Vote

/-- `Vote::signed_bytes`: `public_key ‖ candidate.to_le_bytes() ‖ token_0 ‖ … ‖ bincode(timestamp)`. -/
def signed_bytes (public_key : Bytes) (candidate : Nat) (timestamp : Timestamp)
    (access_tokens : List Bytes) : Bytes :=
  public_key ++ [candidate % 256] ++ access_tokens.foldl (· ++ ·) [] ++ encodeTimestamp timestamp

/-- `Vote::new`: builds the vote and signs `signed_bytes` with the signer. -/
def new (signer : Signer) (candidate : Nat) (timestamp : Timestamp)
    (access_tokens : List Bytes) : Vote :=
  let public_key := signer.get_public_key
  { public_key := public_key
    candidate := candidate
    timestamp := timestamp
    access_tokens := access_tokens
    signature := signer.sign (signed_bytes public_key candidate timestamp access_tokens) }

/-- The `for (i, access_token) in self.access_tokens.iter().enumerate()` loop of
`Vote::verify`.  `blind_verify ver tok msg` models
`Verifier::verify_signature(tok, msg)` for the verifier holding public key
`ver`; slice indexing past `verifiers` panics. -/
def verifyTokens (blind_verify : Bytes → Bytes → Bytes → Bool) (verifiers : List Bytes)
    (public_key : Bytes) : List Bytes → Nat → VerifyResult
  | [], _ => .ok
  | tok :: rest, i =>
    match verifiers[i]? with
    | none => .indexOutOfBounds i
    | some ver =>
      if blind_verify ver tok public_key then
        verifyTokens blind_verify verifiers public_key rest (i + 1)
      else
        .err .accessTokenVerification

/-- `Vote::verify`: timestamp-limits check, then each access token against the
verifier of the same index, then the detached signature over `signed_bytes`.
`digital_verify msg sig pk` models `digital_sign::verify(msg, sig, pk)`. -/
def verify (blind_verify : Bytes → Bytes → Bytes → Bool)
    (digital_verify : Bytes → Bytes → Bytes → Bool)
    (v : Vote) (verifiers : List Bytes) (limits : Limits) : VerifyResult :=
  if !(limits.verify v.timestamp) then
    .err (.invalidTimestamp v.timestamp)
  else
    match verifyTokens blind_verify verifiers v.public_key v.access_tokens 0 with
    | .ok =>
      if digital_verify (signed_bytes v.public_key v.candidate v.timestamp v.access_tokens)
          v.signature v.public_key then
        .ok
      else
        .err .signatureVerification
    | r => r

end Vote

/-! Helper lemmas about `Vote.verifyTokens`. -/

theorem verifyTokens_nil (bv : Bytes → Bytes → Bytes → Bool) (verifiers : List Bytes)
    (pk : Bytes) (i : Nat) : Vote.verifyTokens bv verifiers pk [] i = .ok := rfl

theorem verifyTokens_cons_none (bv : Bytes → Bytes → Bytes → Bool) (verifiers : List Bytes)
    (pk tok : Bytes) (rest : List Bytes) (i : Nat) (h : verifiers[i]? = none) :
    Vote.verifyTokens bv verifiers pk (tok :: rest) i = .indexOutOfBounds i := by
  unfold Vote.verifyTokens
  rw [h]

theorem verifyTokens_cons_some (bv : Bytes → Bytes → Bytes → Bool) (verifiers : List Bytes)
    (pk tok ver : Bytes) (rest : List Bytes) (i : Nat) (h : verifiers[i]? = some ver) :
    Vote.verifyTokens bv verifiers pk (tok :: rest) i =
      if bv ver tok pk then Vote.verifyTokens bv verifiers pk rest (i + 1)
      else .err .accessTokenVerification := by
  rw [show Vote.verifyTokens bv verifiers pk (tok :: rest) i =
      match verifiers[i]? with
      | none => VerifyResult.indexOutOfBounds i
      | some ver =>
        if bv ver tok pk then Vote.verifyTokens bv verifiers pk rest (i + 1)
        else .err .accessTokenVerification
    from rfl, h]

theorem verifyTokens_ne_invalidTimestamp (bv : Bytes → Bytes → Bytes → Bool)
    (verifiers : List Bytes) (pk : Bytes) :
    ∀ (toks : List Bytes) (i : Nat) (t : Timestamp),
      Vote.verifyTokens bv verifiers pk toks i ≠ .err (.invalidTimestamp t) := by
  intro toks
  induction toks with
  | nil => intro i t h; simp [verifyTokens_nil] at h
  | cons tok rest ih =>
    intro i t h
    cases hv : verifiers[i]? with
    | none => rw [verifyTokens_cons_none bv verifiers pk tok rest i hv] at h; simp at h
    | some ver =>
      rw [verifyTokens_cons_some bv verifiers pk tok ver rest i hv] at h
      by_cases hb : bv ver tok pk
      · rw [if_pos hb] at h; exact ih (i + 1) t h
      · rw [if_neg hb] at h; simp at h

theorem verifyTokens_ok_of_all_pass (bv : Bytes → Bytes → Bytes → Bool)
    (verifiers : List Bytes) (pk : Bytes) :
    ∀ (toks : List Bytes) (i : Nat),
      (∀ j, j < toks.length →
        ∃ ver, verifiers[i + j]? = some ver ∧ bv ver (toks.getD j []) pk = true) →
      Vote.verifyTokens bv verifiers pk toks i = .ok := by
  intro toks
  induction toks with
  | nil => intro i _; rfl
  | cons tok rest ih =>
    intro i hall
    obtain ⟨ver, hver, hpass⟩ := hall 0 (Nat.succ_pos _)
    rw [Nat.add_zero] at hver
    rw [verifyTokens_cons_some bv verifiers pk tok ver rest i hver]
    simp only [List.getD_cons_zero] at hpass
    rw [if_pos hpass]
    refine ih (i + 1) ?_
    intro j hj
    obtain ⟨ver', hver', hpass'⟩ := hall (j + 1) (Nat.succ_lt_succ hj)
    refine ⟨ver', ?_, ?_⟩
    · rw [show i + 1 + j = i + (j + 1) by omega]; exact hver'
    · simpa using hpass'

theorem verifyTokens_oob (bv : Bytes → Bytes → Bytes → Bool)
    (verifiers : List Bytes) (pk : Bytes) :
    ∀ (toks : List Bytes) (i : Nat),
      i ≤ verifiers.length →
      verifiers.length < i + toks.length →
      (∀ j, i + j < verifiers.length →
        bv (verifiers.getD (i + j) []) (toks.getD j []) pk = true) →
      Vote.verifyTokens bv verifiers pk toks i = .indexOutOfBounds verifiers.length := by
  intro toks
  induction toks with
  | nil => intro i hle hlt _; simp at hlt; omega
  | cons tok rest ih =>
    intro i hle hlt hall
    by_cases hi : i = verifiers.length
    · subst hi
      rw [verifyTokens_cons_none bv verifiers pk tok rest _
        (List.getElem?_eq_none (Nat.le_refl _))]
    · have hi' : i < verifiers.length := Nat.lt_of_le_of_ne hle hi
      have hpass := hall 0 (by omega)
      rw [Nat.add_zero] at hpass
      simp only [List.getD_cons_zero] at hpass
      rw [List.getD_eq_getElem _ _ hi'] at hpass
      rw [verifyTokens_cons_some bv verifiers pk tok _ rest i (List.getElem?_eq_getElem hi')]
      rw [if_pos hpass]
      refine ih (i + 1) hi' (by simp at hlt ⊢; omega) ?_
      intro j hj
      have := hall (j + 1) (by omega)
      rw [show i + (j + 1) = i + 1 + j by omega] at this
      simpa using this

/-- Boolean characterisation of a failing `Limits::verify`: the limits are
inclusive, so verification fails exactly when the timestamp is strictly below
the lower limit or strictly above the upper one. -/
theorem limits_verify_false_iff (l : Limits) (t : Timestamp) :
    l.verify t = false ↔
      (Timestamp.ltb t l.timestamp_lower_limit ||
        Timestamp.ltb l.timestamp_upper_limit t) = true := by
  obtain ⟨⟨as, an⟩, ⟨bs, bn⟩⟩ := l
  obtain ⟨ts, tn⟩ := t
  simp only [Limits.verify, Timestamp.leb, Timestamp.ltb, Bool.and_eq_false_iff,
    Bool.or_eq_false_iff, Bool.or_eq_true, Bool.and_eq_true, Bool.and_eq_false_imp,
    decide_eq_false_iff_not, decide_eq_true_eq]
  omega

/-- C4: `Vote::verify` fails with `InvalidTimestmap` exactly when the vote's
timestamp is strictly below the lower limit or strictly above the upper limit;
timestamps equal to a limit pass (the limits are inclusive), and the check runs
before any access-token or signature verification (the equivalence holds for
every choice of the token and signature verification functions). -/
theorem vote_verify_invalid_timestamp_iff (bv dv : Bytes → Bytes → Bytes → Bool)
    (v : Vote) (verifiers : List Bytes) (limits : Limits) :
    Vote.verify bv dv v verifiers limits = .err (.invalidTimestamp v.timestamp) ↔
      (Timestamp.ltb v.timestamp limits.timestamp_lower_limit ||
        Timestamp.ltb limits.timestamp_upper_limit v.timestamp) = true := by
  constructor
  · intro hc
    by_cases h : limits.verify v.timestamp = true
    · exfalso
      unfold Vote.verify at hc
      rw [h] at hc
      rw [if_neg (by simp)] at hc
      rcases hres : Vote.verifyTokens bv verifiers v.public_key v.access_tokens 0 with - | e | i
      · rw [hres] at hc
        by_cases hd : dv (Vote.signed_bytes v.public_key v.candidate v.timestamp v.access_tokens)
            v.signature v.public_key = true
        · rw [hd] at hc; simp at hc
        · rw [Bool.eq_false_iff.mpr hd] at hc; simp at hc
      · rw [hres] at hc
        injection hc with he
        subst he
        exact verifyTokens_ne_invalidTimestamp bv verifiers v.public_key v.access_tokens 0
          v.timestamp hres
      · rw [hres] at hc; simp at hc
    · exact (limits_verify_false_iff _ _).mp (Bool.eq_false_iff.mpr h)
  · intro hr
    have hb : limits.verify v.timestamp = false := (limits_verify_false_iff _ _).mpr hr
    unfold Vote.verify
    rw [hb]
    simp

/-- C8 (amended): `Vote::verify` never compares the number of access tokens with
the number of verifiers.  When there are more tokens than verifiers, the
timestamp is within the limits and every token that does have a verifier
passes, the loop indexes the verifier slice out of bounds (a Rust panic) at
index `verifiers.length` instead of returning an error. -/
theorem vote_verify_index_out_of_bounds (bv dv : Bytes → Bytes → Bytes → Bool)
    (v : Vote) (verifiers : List Bytes) (limits : Limits)
    (hts : limits.verify v.timestamp = true)
    (hlen : verifiers.length < v.access_tokens.length)
    (hpass : ∀ j, j < verifiers.length →
      bv (verifiers.getD j []) (v.access_tokens.getD j []) v.public_key = true) :
    Vote.verify bv dv v verifiers limits = .indexOutOfBounds verifiers.length := by
  unfold Vote.verify
  rw [hts]
  rw [if_neg (by simp)]
  rw [verifyTokens_oob bv verifiers v.public_key v.access_tokens 0 (Nat.zero_le _)
    (by omega) (by intro j hj; simpa using hpass j (by omega))]

/-- Witness for the amended C8: a vote with one token and no verifiers, inside
the window, makes `Vote::verify` hit the out-of-bounds slice access. -/
theorem vote_verify_index_out_of_bounds_witness :
    Vote.verify (fun _ _ _ => true) (fun _ _ _ => true)
      ⟨[1], 0, ⟨5, 0⟩, [[2]], [3]⟩ [] ⟨⟨0, 0⟩, ⟨10, 0⟩⟩ = .indexOutOfBounds 0 :=
  vote_verify_index_out_of_bounds (fun _ _ _ => true) (fun _ _ _ => true)
    ⟨[1], 0, ⟨5, 0⟩, [[2]], [3]⟩ [] ⟨⟨0, 0⟩, ⟨10, 0⟩⟩
    (by decide) (by decide) (by intro j hj; simp at hj)

/-- C3: the honest token pipeline.  The RSA blind-signature scheme is library
code (`blind_rsa_signatures`); it enters as the functions `blind`,
`blind_sign`, `unblind` and the verification predicate `bv`, together with the
library's correctness contract over all key pairs (`hcontract`), and the
Ed25519 signer likewise (`hsig`).  Under those contracts, a vote built by
`Vote::new` from tokens produced by blind → blind-sign → unblind, checked
against the same authorities' verifiers in the same order and limits that
contain the timestamp, is accepted by `Vote::verify`. -/
theorem vote_new_verify_accepts
    (blind : Bytes → Bytes → Bytes → Bytes × Bytes)
    (blind_sign : Bytes → Bytes → Bytes)
    (unblind : Bytes → Bytes → Bytes → Bytes → Bytes)
    (bv dv : Bytes → Bytes → Bytes → Bool)
    (keypair : Bytes → Bytes → Prop)
    (signer : Signer) (candidate : Nat) (timestamp : Timestamp) (limits : Limits)
    (authorities : List (Bytes × Bytes)) (rs : List Bytes)
    (hcontract : ∀ apk ask, keypair apk ask → ∀ msg r,
      bv apk (unblind apk (blind_sign ask (blind apk msg r).1) (blind apk msg r).2 msg) msg = true)
    (hsig : ∀ m, dv m (signer.sign m) signer.get_public_key = true)
    (hkeys : ∀ p ∈ authorities, keypair p.1 p.2)
    (hlen : rs.length = authorities.length)
    (hts : limits.verify timestamp = true) :
    Vote.verify bv dv
      (Vote.new signer candidate timestamp
        ((authorities.zip rs).map fun p =>
          unblind p.1.1 (blind_sign p.1.2 (blind p.1.1 signer.get_public_key p.2).1)
            (blind p.1.1 signer.get_public_key p.2).2 signer.get_public_key))
      (authorities.map Prod.fst) limits = .ok := by
  unfold Vote.verify Vote.new
  simp only
  rw [hts]
  rw [if_neg (by simp)]
  rw [verifyTokens_ok_of_all_pass bv (authorities.map Prod.fst) signer.get_public_key _ 0 ?hall]
  · rw [hsig]
    simp
  case hall =>
    intro j hj
    have hj' : j < authorities.length := by
      simpa [List.length_zip, hlen] using hj
    have hjr : j < rs.length := by omega
    refine ⟨authorities[j].1, ?_, ?_⟩
    · rw [Nat.zero_add, List.getElem?_map, List.getElem?_eq_getElem hj']
      rfl
    · rw [List.getD_eq_getElem _ _ (by simpa [List.length_zip, hlen] using hj)]
      rw [List.getElem_map, List.getElem_zip]
      exact hcontract authorities[j].1 authorities[j].2
        (hkeys authorities[j] (List.getElem_mem hj')) signer.get_public_key rs[j]

/-- Witness for C3 at a concrete toy blind-signature and signature scheme:
one authority, token `[1, 5]`, public key `[5]`. -/
theorem vote_new_verify_accepts_witness :
    Vote.verify (fun ver tok msg => tok == ver ++ msg) (fun m sig pk => sig == pk ++ m)
      (Vote.new ⟨[5], fun m => [5] ++ m⟩ 2 ⟨5, 0⟩ [[1, 5]])
      [[1]] ⟨⟨0, 0⟩, ⟨10, 0⟩⟩ = .ok := by
  have h := vote_new_verify_accepts
    (fun _ msg r => (msg, r)) (fun ask bm => ask ++ bm) (fun _ bs _ _ => bs)
    (fun ver tok msg => tok == ver ++ msg) (fun m sig pk => sig == pk ++ m)
    (fun apk ask => apk = ask)
    ⟨[5], fun m => [5] ++ m⟩ 2 ⟨5, 0⟩ ⟨⟨0, 0⟩, ⟨10, 0⟩⟩
    [([1], [1])] [[0]]
    (by intro apk ask hk msg r; subst hk; simp)
    (by intro m; simp)
    (by intro p hp; simp only [List.mem_singleton] at hp; subst hp; rfl)
    rfl (by decide)
  exact h

/-- Counterexample to C8 as stated: a vote with more access tokens than
verifiers and a timestamp within the limits does NOT always panic — if an
earlier token fails verification, the `AccessTokenVerification` error is
returned before the out-of-bounds index is reached. -/
theorem vote_verify_oob_counterexample :
    ([[9]] : List Bytes).length < ([[1], [2]] : List Bytes).length ∧
    Limits.verify ⟨⟨0, 0⟩, ⟨10, 0⟩⟩ ⟨5, 0⟩ = true ∧
    Vote.verify (fun _ _ _ => false) (fun _ _ _ => true)
      ⟨[1], 0, ⟨5, 0⟩, [[1], [2]], [3]⟩ [[9]] ⟨⟨0, 0⟩, ⟨10, 0⟩⟩ =
      .err .accessTokenVerification := by
  refine ⟨by decide, by decide, ?_⟩
  decide

/-! ### In-memory blockchain (`src/chain/blockchain.rs`) -/

/-- The all-zero 32-byte hash `Hash([0; 32])` used as the previous-hash
sentinel of the first block. -/
def zeroHash32 : Bytes := List.replicate 32 0

/-- Model of `chain::blockchain::Block<T>`. -/
structure ChainBlock (T : Type) where
  values : List T
  timestamp : Timestamp
  prev_block_hash : Bytes

instance (T : Type) : Inhabited (ChainBlock T) :=
  ⟨⟨[], default, zeroHash32⟩⟩

/-- Model of `chain::blockchain::Blockchain<T>`: the in-memory block list. -/
structure Chain (T : Type) where
  blocks : List (ChainBlock T)

variable {T : Type}

namespace Chain

/-- `Blockchain::new`: the empty chain. -/
def new (T : Type) : Chain T := ⟨[]⟩

/-- `Blockchain::add_block`: reads the previous hash from the last block (the
all-zero hash when the chain is empty), builds the block and pushes it.
`Block::get_hash` (SHA-256 over the bincode serialization) is a library
computation passed in as `H`; the `Utc::now()` creation timestamp is passed in
as `ts`. -/
def add_block (H : ChainBlock T → Bytes) (c : Chain T) (block_value : List T)
    (ts : Timestamp) : Chain T :=
  let prev_block_hash := match c.blocks.getLast? with
    | some b => H b
    | none => zeroHash32
  ⟨c.blocks ++ [⟨block_value, ts, prev_block_hash⟩]⟩

/-- The loop of `Blockchain::validate_hashes`, carrying the running
previous-hash accumulator (initially all-zero).  The error payload is
`BlockchainHashIntegrity(stored_prev_hash, recomputed_hash)` in the source's
argument order. -/
def validateFrom (H : ChainBlock T → Bytes) (prev : Bytes) :
    List (ChainBlock T) → Except (Bytes × Bytes) Unit
  | [] => .ok ()
  | b :: rest =>
    if b.prev_block_hash ≠ prev then .error (b.prev_block_hash, prev)
    else validateFrom H (H b) rest

/-- `Blockchain::validate_hashes`. -/
def validate_hashes (H : ChainBlock T → Bytes) (c : Chain T) : Except (Bytes × Bytes) Unit :=
  validateFrom H zeroHash32 c.blocks

end Chain

/-- The hash the chain invariant expects at position `h`: all-zero (more
generally, the accumulator `prev`) at position 0, the hash of the previous
block otherwise. -/
def expectedFrom (H : ChainBlock T → Bytes) (prev : Bytes) (bs : List (ChainBlock T))
    (h : Nat) : Bytes :=
  if h = 0 then prev else H (bs.getD (h - 1) default)

/-- Recursive statement of the hash-chain invariant. -/
def chainOkFrom (H : ChainBlock T → Bytes) (prev : Bytes) : List (ChainBlock T) → Prop
  | [] => True
  | b :: rest => b.prev_block_hash = prev ∧ chainOkFrom H (H b) rest

theorem expectedFrom_cons_succ (H : ChainBlock T → Bytes) (prev : Bytes) (b : ChainBlock T)
    (rest : List (ChainBlock T)) (j : Nat) :
    expectedFrom H prev (b :: rest) (j + 1) = expectedFrom H (H b) rest j := by
  cases j with
  | zero => simp [expectedFrom]
  | succ k => simp [expectedFrom, List.getD_cons_succ]

theorem validateFrom_ok_iff (H : ChainBlock T → Bytes) :
    ∀ (bs : List (ChainBlock T)) (prev : Bytes),
      Chain.validateFrom H prev bs = .ok () ↔ chainOkFrom H prev bs := by
  intro bs
  induction bs with
  | nil => intro prev; simp [Chain.validateFrom, chainOkFrom]
  | cons b rest ih =>
    intro prev
    by_cases hb : b.prev_block_hash = prev
    · simp [Chain.validateFrom, chainOkFrom, hb, ih]
    · simp [Chain.validateFrom, chainOkFrom, hb]

theorem chainOkFrom_iff_indexed (H : ChainBlock T → Bytes) :
    ∀ (bs : List (ChainBlock T)) (prev : Bytes),
      chainOkFrom H prev bs ↔
        ∀ h, h < bs.length →
          (bs.getD h default).prev_block_hash = expectedFrom H prev bs h := by
  intro bs
  induction bs with
  | nil => intro prev; simp [chainOkFrom]
  | cons b rest ih =>
    intro prev
    constructor
    · rintro ⟨h0, hrest⟩ h hh
      cases h with
      | zero => simpa [expectedFrom] using h0
      | succ j =>
        rw [List.getD_cons_succ, expectedFrom_cons_succ]
        exact (ih (H b)).mp hrest j (by simpa using hh)
    · intro hall
      refine ⟨by simpa [expectedFrom] using hall 0 (Nat.succ_pos _), (ih (H b)).mpr ?_⟩
      intro j hj
      have hstep := hall (j + 1) (by simpa using hj)
      rw [List.getD_cons_succ, expectedFrom_cons_succ] at hstep
      exact hstep

theorem validateFrom_error (H : ChainBlock T → Bytes) :
    ∀ (bs : List (ChainBlock T)) (prev found expect : Bytes),
      Chain.validateFrom H prev bs = .error (found, expect) →
      ∃ h, h < bs.length ∧
        (bs.getD h default).prev_block_hash ≠ expectedFrom H prev bs h ∧
        (∀ j, j < h → (bs.getD j default).prev_block_hash = expectedFrom H prev bs j) ∧
        found = (bs.getD h default).prev_block_hash ∧
        expect = expectedFrom H prev bs h := by
  intro bs
  induction bs with
  | nil => intro prev found expect hv; simp [Chain.validateFrom] at hv
  | cons b rest ih =>
    intro prev found expect hv
    by_cases hb : b.prev_block_hash = prev
    · simp only [Chain.validateFrom] at hv
      rw [if_neg (not_not_intro hb)] at hv
      obtain ⟨h, hlen, hmis, hmin, hf, he⟩ := ih (H b) found expect hv
      refine ⟨h + 1, by simpa using Nat.succ_lt_succ hlen, ?_, ?_, ?_, ?_⟩
      · rw [List.getD_cons_succ, expectedFrom_cons_succ]; exact hmis
      · intro j hj
        cases j with
        | zero => simpa [expectedFrom] using hb
        | succ k =>
          rw [List.getD_cons_succ, expectedFrom_cons_succ]
          exact hmin k (by omega)
      · rw [List.getD_cons_succ]; exact hf
      · rw [expectedFrom_cons_succ]; exact he
    · simp only [Chain.validateFrom] at hv
      rw [if_pos hb] at hv
      injection hv with hpair
      injection hpair with hf he
      refine ⟨0, Nat.succ_pos _, ?_, ?_, ?_, ?_⟩
      · simpa [expectedFrom] using hb
      · intro j hj; omega
      · simpa [expectedFrom] using hf.symm
      · simpa [expectedFrom] using he.symm

/-- The hash that `add_block` will use as the previous hash of the next block. -/
def lastHashFrom (H : ChainBlock T → Bytes) (prev : Bytes) (bs : List (ChainBlock T)) : Bytes :=
  match bs.getLast? with
  | some b => H b
  | none => prev

theorem lastHashFrom_cons (H : ChainBlock T → Bytes) (prev : Bytes) (x : ChainBlock T)
    (rest : List (ChainBlock T)) :
    lastHashFrom H prev (x :: rest) = lastHashFrom H (H x) rest := by
  cases rest with
  | nil => simp [lastHashFrom]
  | cons y ys =>
    unfold lastHashFrom
    rw [List.getLast?_cons_cons]
    rcases hl : (y :: ys).getLast? with - | l
    · exact absurd hl (by simp)
    · rfl

theorem chainOkFrom_append (H : ChainBlock T → Bytes) :
    ∀ (bs : List (ChainBlock T)) (prev : Bytes) (b : ChainBlock T),
      chainOkFrom H prev bs → b.prev_block_hash = lastHashFrom H prev bs →
      chainOkFrom H prev (bs ++ [b]) := by
  intro bs
  induction bs with
  | nil =>
    intro prev b _ hb
    exact ⟨by simpa [lastHashFrom] using hb, trivial⟩
  | cons x rest ih =>
    intro prev b hok hb
    obtain ⟨h0, hrest⟩ := hok
    rw [lastHashFrom_cons] at hb
    exact ⟨h0, ih (H x) b hrest hb⟩

theorem add_block_preserves_ok (H : ChainBlock T → Bytes) (c : Chain T)
    (vals : List T) (ts : Timestamp) :
    chainOkFrom H zeroHash32 c.blocks →
    chainOkFrom H zeroHash32 (Chain.add_block H c vals ts).blocks := by
  intro hok
  unfold Chain.add_block
  refine chainOkFrom_append H c.blocks zeroHash32 _ hok ?_
  cases hl : c.blocks.getLast? <;> simp [lastHashFrom, hl]

theorem foldl_add_block_ok (H : ChainBlock T → Bytes) :
    ∀ (ops : List (List T × Timestamp)) (c : Chain T),
      chainOkFrom H zeroHash32 c.blocks →
      chainOkFrom H zeroHash32
        (ops.foldl (fun ch p => Chain.add_block H ch p.1 p.2) c).blocks := by
  intro ops
  induction ops with
  | nil => intro c h; exact h
  | cons op rest ih => intro c h; exact ih _ (add_block_preserves_ok H c op.1 op.2 h)

/-- C5: `validate_hashes` succeeds exactly when every block's
`prev_block_hash` equals the hash of the previous block (the all-zero hash at
height 0); on failure it reports, at the first failing height, the stored and
the recomputed hash; and every chain built only by `add_block` calls from the
empty chain validates. -/
theorem validate_hashes_spec (T : Type) (H : ChainBlock T → Bytes) (c : Chain T) :
    (Chain.validate_hashes H c = .ok () ↔
      ∀ h, h < c.blocks.length →
        (c.blocks.getD h default).prev_block_hash = expectedFrom H zeroHash32 c.blocks h)
    ∧ (∀ found expect, Chain.validate_hashes H c = .error (found, expect) →
        ∃ h, h < c.blocks.length ∧
          (c.blocks.getD h default).prev_block_hash ≠ expectedFrom H zeroHash32 c.blocks h ∧
          (∀ j, j < h →
            (c.blocks.getD j default).prev_block_hash = expectedFrom H zeroHash32 c.blocks j) ∧
          found = (c.blocks.getD h default).prev_block_hash ∧
          expect = expectedFrom H zeroHash32 c.blocks h)
    ∧ (∀ ops : List (List T × Timestamp),
        Chain.validate_hashes H
          (ops.foldl (fun ch p => Chain.add_block H ch p.1 p.2) (Chain.new T)) = .ok ()) := by
  refine ⟨?_, ?_, ?_⟩
  · unfold Chain.validate_hashes
    rw [validateFrom_ok_iff H c.blocks zeroHash32, chainOkFrom_iff_indexed H c.blocks zeroHash32]
  · intro found expect hv
    exact validateFrom_error H c.blocks zeroHash32 found expect hv
  · intro ops
    unfold Chain.validate_hashes
    exact (validateFrom_ok_iff H _ zeroHash32).mpr
      (foldl_add_block_ok H ops (Chain.new T) trivial)

/-- Witness for C5: a one-block chain built by `add_block` validates. -/
theorem validate_hashes_spec_witness :
    Chain.validate_hashes (fun _ => [1])
      (([([1], (⟨0, 0⟩ : Timestamp))]).foldl
        (fun ch p => Chain.add_block (fun _ => [1]) ch p.1 p.2) (Chain.new Nat)) = .ok () :=
  (validate_hashes_spec Nat (fun _ => [1]) (Chain.new Nat)).2.2 [([1], ⟨0, 0⟩)]

/-! ### Persisted blockchain (`subcrates/blockchain`) -/

/-- Modelled from the spec: `Hash::zero()` is called by `Blockchain::new` but
its definition is not among the sources; §3 of the spec fixes it as the
"all-zero sentinel" 32-byte hash. -/
def Hash.zero : Bytes := List.replicate 32 0

/-- Model of `blockchain::block::Block` (`value_type_id : u16`). -/
structure Block where
  value_type_id : Nat
  value : Bytes
  timestamp : Timestamp
  prev_block_hash : Bytes
deriving DecidableEq, Repr

/-- `Block::calculate_hash::<D>`: feeds `value_type_id.to_le_bytes()` (u16),
the value bytes, `timestamp.timestamp().to_le_bytes()` (the WHOLE-SECOND unix
timestamp as an i64 — the nanosecond part is not hashed) and
`prev_block_hash` to the digest.  The digest `D` (BLAKE3 / SHA-256, library
code) is a parameter; feeding it incrementally equals hashing the
concatenation. -/
def Block.calculate_hash (D : Bytes → Bytes) (b : Block) : Bytes :=
  D (natToLEBytes 2 b.value_type_id ++ b.value ++
    intToLEBytes 8 b.timestamp.secs ++ b.prev_block_hash)

/-- Model of `blockchain::blockchain::Error` (the variants the claims use). -/
inductive BlockchainError
  | wrongKey (height : Nat)
  | storage
deriving DecidableEq, Repr

/-- In-memory part of `blockchain::Blockchain` plus its storage contents.
The storage file maps u64 heights to serialized blocks; in the usage produced
by `add_block` the keys are exactly `0..len-1`, so the list position is the
height. -/
structure BlockchainState where
  block_count : Nat
  last_hash : Bytes
  storage : List Block
deriving DecidableEq, Repr

/-- `Blockchain::new`.  `blocks?` is `none` when `Storage::open` fails with
`DoesNotExist` (missing file; a fresh database is created) and `some blocks`
when the file opens with `blocks` stored at heights `0..len-1`.  The source
then loads height `block_count - 1` in u64 arithmetic — which wraps to
`2^64 - 1` when `len == 0` (a debug build panics on the underflow; either way
the open does not treat the ledger as fresh) — and sets `last_hash` to
`last_block.prev_block_hash`, not to the hash of the last block. -/
def Blockchain.new (blocks? : Option (List Block)) : Except BlockchainError BlockchainState :=
  match blocks? with
  | none => .ok ⟨0, Hash.zero, []⟩
  | some blocks =>
    let block_count := blocks.length
    let idx := (block_count + (2 ^ 64 - 1)) % 2 ^ 64
    match blocks[idx]? with
    | none => .error (.wrongKey idx)
    | some last_block => .ok ⟨block_count, last_block.prev_block_hash, blocks⟩

/-- `Blockchain::add_block`: assigns `last_hash ← hash(block)` FIRST, then
writes the block at height `block_count` (`block.save(...)?` returns early
when the storage transaction fails — the write outcome is the environment
parameter `save_ok`), then increments `block_count`. -/
def Blockchain.add_block (D : Bytes → Bytes) (bc : BlockchainState) (block : Block)
    (save_ok : Bool) : BlockchainState × Except BlockchainError Unit :=
  let bc1 : BlockchainState := { bc with last_hash := Block.calculate_hash D block }
  if save_ok then
    ({ bc1 with storage := bc1.storage ++ [block], block_count := bc1.block_count + 1 }, .ok ())
  else
    (bc1, .error .storage)

/-- C2 (code bug): opening an existing storage with 0 blocks fails with
`WrongKey(2^64 - 1)` instead of treating the ledger as fresh, and opening a
one-block storage sets `last_hash` to that block's `prev_block_hash` (the
all-zero hash) even though the hash of the last stored block differs. -/
theorem blockchain_new_recovery_bug :
    Blockchain.new (some []) = .error (.wrongKey (2 ^ 64 - 1)) ∧
    Blockchain.new (some [⟨0, [], ⟨0, 0⟩, Hash.zero⟩]) =
      .ok ⟨1, Hash.zero, [⟨0, [], ⟨0, 0⟩, Hash.zero⟩]⟩ ∧
    Block.calculate_hash (fun _ => [7]) ⟨0, [], ⟨0, 0⟩, Hash.zero⟩ ≠ Hash.zero := by
  refine ⟨rfl, rfl, by decide⟩

/-- C9: when the storage write fails, `add_block` returns the storage error
with `block_count` and the storage unchanged, but `last_hash` already
reassigned to the hash of the block that was never persisted — so the
in-memory state is not left unchanged on error (whenever that hash differs
from the old `last_hash`). -/
theorem add_block_state_on_storage_error (D : Bytes → Bytes) (bc : BlockchainState)
    (block : Block) :
    (Blockchain.add_block D bc block false).2 = .error .storage ∧
    (Blockchain.add_block D bc block false).1.block_count = bc.block_count ∧
    (Blockchain.add_block D bc block false).1.storage = bc.storage ∧
    (Blockchain.add_block D bc block false).1.last_hash = Block.calculate_hash D block ∧
    (Block.calculate_hash D block ≠ bc.last_hash →
      (Blockchain.add_block D bc block false).1 ≠ bc) := by
  refine ⟨rfl, rfl, rfl, rfl, ?_⟩
  intro hne heq
  exact hne (by simpa using congrArg BlockchainState.last_hash heq)

/-- Witness for C9 at a concrete failing write. -/
theorem add_block_state_on_storage_error_witness :
    (Blockchain.add_block (fun _ => [7]) ⟨0, Hash.zero, []⟩ ⟨0, [], ⟨0, 0⟩, Hash.zero⟩
      false).1 ≠ ⟨0, Hash.zero, []⟩ :=
  (add_block_state_on_storage_error (fun _ => [7]) ⟨0, Hash.zero, []⟩
    ⟨0, [], ⟨0, 0⟩, Hash.zero⟩).2.2.2.2 (by decide)

theorem natToLEBytes_inj : ∀ (k a b : Nat), a < 2 ^ (8 * k) → b < 2 ^ (8 * k) →
    natToLEBytes k a = natToLEBytes k b → a = b := by
  intro k
  induction k with
  | zero =>
    intro a b ha hb _
    simp only [Nat.mul_zero, pow_zero] at ha hb
    omega
  | succ m ih =>
    intro a b ha hb h
    simp only [natToLEBytes] at h
    injection h with h1 h2
    have hpow : 2 ^ (8 * (m + 1)) = 2 ^ (8 * m) * 256 := by
      rw [Nat.mul_succ, pow_add]
      norm_num
    rw [hpow] at ha hb
    have ha' : a / 256 < 2 ^ (8 * m) := by
      rw [Nat.div_lt_iff_lt_mul (by norm_num)]
      omega
    have hb' : b / 256 < 2 ^ (8 * m) := by
      rw [Nat.div_lt_iff_lt_mul (by norm_num)]
      omega
    have := ih (a / 256) (b / 256) ha' hb' h2
    omega

/-- C10: two blocks identical except in the nanosecond part of the timestamp
have the same `calculate_hash` (only the whole-second timestamp is fed to the
digest), for EVERY digest function — yet the blocks differ and the
serialized timestamp (which keeps nanoseconds) differs, so the change is
invisible to block-hash validation while being present on disk. -/
theorem calculate_hash_ignores_nanoseconds (D : Bytes → Bytes) (id : Nat) (value : Bytes)
    (secs : Int) (n n' : Nat) (prev : Bytes)
    (hne : n ≠ n') (hn : n < 2 ^ 32) (hn' : n' < 2 ^ 32) :
    Block.calculate_hash D ⟨id, value, ⟨secs, n⟩, prev⟩ =
      Block.calculate_hash D ⟨id, value, ⟨secs, n'⟩, prev⟩ ∧
    (⟨id, value, ⟨secs, n⟩, prev⟩ : Block) ≠ ⟨id, value, ⟨secs, n'⟩, prev⟩ ∧
    encodeTimestamp ⟨secs, n⟩ ≠ encodeTimestamp ⟨secs, n'⟩ := by
  refine ⟨rfl, ?_, ?_⟩
  · intro h
    injection h with h1 h2 h3 h4
    injection h3 with hs hn2
    exact hne hn2
  · intro h
    unfold encodeTimestamp at h
    have h' := List.append_cancel_left h
    exact hne (natToLEBytes_inj 4 n n' (by simpa using hn) (by simpa using hn') h')

/-- Witness for C10 at nanoseconds 0 and 1. -/
theorem calculate_hash_ignores_nanoseconds_witness :
    Block.calculate_hash (fun x => x) ⟨0, [], ⟨0, 0⟩, []⟩ =
      Block.calculate_hash (fun x => x) ⟨0, [], ⟨0, 1⟩, []⟩ ∧
    (⟨0, [], ⟨0, 0⟩, []⟩ : Block) ≠ ⟨0, [], ⟨0, 1⟩, []⟩ ∧
    encodeTimestamp ⟨0, 0⟩ ≠ encodeTimestamp ⟨0, 1⟩ :=
  calculate_hash_ignores_nanoseconds (fun x => x) 0 [] 0 0 1 []
    (by decide) (by norm_num) (by norm_num)

/-! ### Batcher (`src/batcher/mod.rs`) -/

/-- The branch taken by one round of the `tokio::select!` / deadline logic in
`Batcher::wait_for_batch`: the interval timer fired, the batch-ready
notification arrived, an item arrived on the channel, or the channel closed. -/
inductive BatchEvent (T : Type)
  | timerFired
  | notified
  | recv (item : T)
  | closed
deriving DecidableEq, Repr

/-- Model of `Batcher<T>` (the channel is modelled by the event trace fed to
`wait_for_batch`; times are integers). -/
structure Batcher (T : Type) where
  batch_size : Nat
  batch_time_interval : Int
  next_batch_time : Int
  batch : List T
deriving DecidableEq, Repr

namespace Batcher

variable {T : Type}

/-- `Batcher::flush`: resets the interval deadline to `now + interval`, then
drains the first `min(batch_size, len)` items (the source computes
`if len < size then len else size`), leaving the rest buffered. -/
def flush (b : Batcher T) (now : Int) : List T × Batcher T :=
  let k := if b.batch.length < b.batch_size then b.batch.length else b.batch_size
  (b.batch.take k,
    { b with next_batch_time := now + b.batch_time_interval, batch := b.batch.drop k })

/-- `Batcher::wait_for_batch` as a function of the event trace: each loop
iteration reads the current time `now` and, when the batch is already full or
the deadline has passed (`time_remaining.to_std()` fails on a negative
duration), flushes; otherwise the select either flushes (timer, notify,
closed channel) or buffers the received item and loops.  `none` means the
trace ended without an emission. -/
def wait_for_batch (b : Batcher T) : List (Int × BatchEvent T) → Option (List T × Batcher T)
  | [] => none
  | (now, ev) :: rest =>
    if b.batch_size ≤ b.batch.length then some (b.flush now)
    else if b.next_batch_time < now then some (b.flush now)
    else match ev with
      | .timerFired => some (b.flush now)
      | .notified => some (b.flush now)
      | .closed => some (b.flush now)
      | .recv item => wait_for_batch { b with batch := b.batch ++ [item] } rest

end Batcher

/-- The items received on the channel along a trace, in FIFO order. -/
def receivedItems {T : Type} (trace : List (Int × BatchEvent T)) : List T :=
  trace.filterMap fun p => match p.2 with
    | .recv t => some t
    | _ => none

theorem receivedItems_take_zero {T : Type} (trace : List (Int × BatchEvent T)) :
    receivedItems (trace.take 0) = [] := rfl

theorem receivedItems_cons_recv {T : Type} (now : Int) (t : T)
    (l : List (Int × BatchEvent T)) :
    receivedItems ((now, .recv t) :: l) = t :: receivedItems l := by
  simp [receivedItems]

theorem flush_eq {T : Type} (b : Batcher T) (now : Int) :
    Batcher.flush b now =
      (b.batch.take (min b.batch_size b.batch.length),
        { b with next_batch_time := now + b.batch_time_interval,
                 batch := b.batch.drop (min b.batch_size b.batch.length) }) := by
  have hk : (if b.batch.length < b.batch_size then b.batch.length else b.batch_size) =
      min b.batch_size b.batch.length := by
    split <;> omega
  show (b.batch.take (if b.batch.length < b.batch_size then b.batch.length else b.batch_size),
    { b with next_batch_time := now + b.batch_time_interval,
             batch := b.batch.drop
               (if b.batch.length < b.batch_size then b.batch.length else b.batch_size) }) = _
  rw [hk]

theorem wait_for_batch_emits (T : Type) :
    ∀ (trace : List (Int × BatchEvent T)) (b : Batcher T) (out : List T) (b' : Batcher T),
      Batcher.wait_for_batch b trace = some (out, b') →
      ∃ k now2, (out, b') =
        Batcher.flush { b with batch := b.batch ++ receivedItems (trace.take k) } now2 := by
  intro trace
  induction trace with
  | nil => intro b out b' h; simp [Batcher.wait_for_batch] at h
  | cons p rest ih =>
    intro b out b' h
    obtain ⟨now, ev⟩ := p
    simp only [Batcher.wait_for_batch] at h
    have emit : b.flush now = (out, b') →
        ∃ k now2, (out, b') =
          Batcher.flush { b with batch := b.batch ++ receivedItems (((now, ev) :: rest).take k) }
            now2 := by
      intro h2
      refine ⟨0, now, ?_⟩
      rw [List.take_zero]
      rw [show b.batch ++ receivedItems ([] : List (Int × BatchEvent T)) = b.batch from by
        simp [receivedItems]]
      exact h2.symm
    by_cases h1 : b.batch_size ≤ b.batch.length
    · rw [if_pos h1] at h
      exact emit (Option.some.inj h)
    · rw [if_neg h1] at h
      by_cases h2 : b.next_batch_time < now
      · rw [if_pos h2] at h
        exact emit (Option.some.inj h)
      · rw [if_neg h2] at h
        cases ev with
        | timerFired => exact emit (Option.some.inj h)
        | notified => exact emit (Option.some.inj h)
        | closed => exact emit (Option.some.inj h)
        | recv item =>
          obtain ⟨k, now2, heq⟩ := ih { b with batch := b.batch ++ [item] } out b' h
          refine ⟨k + 1, now2, ?_⟩
          rw [List.take_succ_cons, receivedItems_cons_recv]
          rw [show b.batch ++ (item :: receivedItems (rest.take k)) =
            (b.batch ++ [item]) ++ receivedItems (rest.take k) from by simp]
          exact heq

/-- C7: every emission is a `flush`: `flush` returns exactly the first
`min(batch_size, buffered)` items in FIFO order, keeps the remaining items
buffered (emitted ++ remaining = buffered, so nothing is dropped), resets the
deadline to `now + batch_interval` and changes no configuration; and every
emission of `wait_for_batch` is a `flush` of the original buffer extended, in
arrival order, by the items received on the channel before the emission. -/
theorem batcher_flush_spec (T : Type) (b : Batcher T) (now : Int) :
    ((Batcher.flush b now).1 = b.batch.take (min b.batch_size b.batch.length)
    ∧ (Batcher.flush b now).2.batch = b.batch.drop (min b.batch_size b.batch.length)
    ∧ (Batcher.flush b now).1 ++ (Batcher.flush b now).2.batch = b.batch
    ∧ (Batcher.flush b now).2.next_batch_time = now + b.batch_time_interval
    ∧ (Batcher.flush b now).2.batch_size = b.batch_size
    ∧ (Batcher.flush b now).2.batch_time_interval = b.batch_time_interval)
    ∧ (∀ (trace : List (Int × BatchEvent T)) (out : List T) (b' : Batcher T),
        Batcher.wait_for_batch b trace = some (out, b') →
        ∃ k now2, (out, b') =
          Batcher.flush { b with batch := b.batch ++ receivedItems (trace.take k) } now2) := by
  refine ⟨⟨?_, ?_, ?_, ?_, ?_, ?_⟩, ?_⟩
  · rw [flush_eq]
  · rw [flush_eq]
  · rw [flush_eq]; exact List.take_append_drop _ _
  · rw [flush_eq]
  · rw [flush_eq]
  · rw [flush_eq]
  · intro trace out b' h
    exact wait_for_batch_emits T trace b out b' h

/-- Witness for C7: a full buffer `[1, 2, 3]` with batch size 2 emits `[1, 2]`
and keeps `[3]` buffered with the deadline reset. -/
theorem batcher_flush_spec_witness :
    ∃ k now2, (([1, 2], (⟨2, 10, 10, [3]⟩ : Batcher Nat)) : List Nat × Batcher Nat) =
      Batcher.flush
        ⟨2, 10, 100, [1, 2, 3] ++ receivedItems (([((0 : Int), BatchEvent.timerFired)]).take k)⟩
        now2 :=
  (batcher_flush_spec Nat ⟨2, 10, 100, [1, 2, 3]⟩ 0).2 [(0, .timerFired)] [1, 2]
    ⟨2, 10, 10, [3]⟩ (by decide)

/-! ### Password-based AEAD (`subcrates/crypto/src/encryption/symmetric.rs`) -/

/-- Model of `symmetric::Error`. -/
inductive CryptoError
  | uuidGeneration
  | nonceGeneration
  | iterationCount
  | keyDerive
  | encryption
  | decryption
deriving DecidableEq, Repr

/-- `Salt::new`: SHA-256 (a library digest, parameter `sha256`) of
`username ‖ uuid`. -/
def Salt.new (sha256 : Bytes → Bytes) (username uuid : Bytes) : Bytes :=
  sha256 (username ++ uuid)

/-- Model of the `Encryption` state: the derived AEAD key and the user's UUID. -/
structure Encryption where
  key : Bytes
  uuid : Bytes
deriving DecidableEq, Repr

namespace Encryption

/-- `Encryption::derive_key`: PBKDF2-HMAC-SHA256 with 100 iterations (library
call, parameter `pbkdf2` taking salt and password) over the salt derived from
username and UUID. -/
def derive_key (sha256 : Bytes → Bytes) (pbkdf2 : Bytes → Bytes → Bytes)
    (username password uuid : Bytes) : Encryption :=
  { key := pbkdf2 (Salt.new sha256 username uuid) password, uuid := uuid }

/-- `MetaData::new`: the 32-byte UUID followed by the 12-byte nonce. -/
def metaDataNew (uuid nonce : Bytes) : Bytes := uuid ++ nonce

/-- `MetaData::get_uuid`: the first 32 bytes. -/
def get_uuid (md : Bytes) : Bytes := md.take 32

/-- `MetaData::get_nonce`: the bytes after the 32-byte UUID. -/
def get_nonce (md : Bytes) : Bytes := md.drop 32

/-- `Encryption::load`: re-derive the key from username, password and the UUID
stored in the metadata. -/
def load (sha256 : Bytes → Bytes) (pbkdf2 : Bytes → Bytes → Bytes)
    (username password md : Bytes) : Encryption :=
  derive_key sha256 pbkdf2 username password (get_uuid md)

/-- `Encryption::encrypt` with the freshly generated random nonce passed in:
builds `metadata = uuid ‖ nonce` and seals the plaintext with
ChaCha20-Poly1305 (library call, parameter `aeadSeal` taking key, nonce, the
metadata as additional authenticated data, and the message); returns the
metadata and the ciphertext (the source seals in place and returns the
metadata). -/
def encrypt (aeadSeal : Bytes → Bytes → Bytes → Bytes → Bytes) (e : Encryption)
    (nonce plaintext : Bytes) : Bytes × Bytes :=
  let metadata := metaDataNew e.uuid nonce
  (metadata, aeadSeal e.key nonce metadata plaintext)

/-- `Encryption::decrypt`: opens the ciphertext with the nonce taken from the
metadata and the metadata as additional authenticated data (`opn` models
`open_in_place`, returning `none` on tag mismatch), failing with
`Error::Decryption` when the library rejects. -/
def decrypt (opn : Bytes → Bytes → Bytes → Bytes → Option Bytes) (e : Encryption)
    (ciphertext md : Bytes) : Except CryptoError Bytes :=
  match opn e.key (get_nonce md) md ciphertext with
  | some m => .ok m
  | none => .error .decryption

end Encryption

/-- C6: under the AEAD library contract (`hseal`: opening with the sealing
key, nonce and AAD recovers the plaintext; `hauth`: opening with a different
key fails) and the KDF contract at the two passwords (`hkdf`: the derived keys
differ — PBKDF2 collision freedom), decrypting with a state re-derived from
the same username and password and the returned metadata yields the
plaintext, while a state derived from a different password fails with the
`Decryption` error. -/
theorem encrypt_decrypt_roundtrip
    (aeadSeal : Bytes → Bytes → Bytes → Bytes → Bytes)
    (opn : Bytes → Bytes → Bytes → Bytes → Option Bytes)
    (sha256 : Bytes → Bytes) (pbkdf2 : Bytes → Bytes → Bytes)
    (username password password' uuid nonce plaintext : Bytes)
    (hseal : ∀ k n a m, opn k n a (aeadSeal k n a m) = some m)
    (hauth : ∀ k k' n a m, k ≠ k' → opn k n a (aeadSeal k' n a m) = none)
    (huuid : uuid.length = 32)
    (hkdf : pbkdf2 (Salt.new sha256 username uuid) password ≠
      pbkdf2 (Salt.new sha256 username uuid) password') :
    (Encryption.decrypt opn
      (Encryption.load sha256 pbkdf2 username password
        (Encryption.encrypt aeadSeal
          (Encryption.derive_key sha256 pbkdf2 username password uuid) nonce plaintext).1)
      (Encryption.encrypt aeadSeal
        (Encryption.derive_key sha256 pbkdf2 username password uuid) nonce plaintext).2
      (Encryption.encrypt aeadSeal
        (Encryption.derive_key sha256 pbkdf2 username password uuid) nonce plaintext).1
      = .ok plaintext)
    ∧ (Encryption.decrypt opn
      (Encryption.load sha256 pbkdf2 username password'
        (Encryption.encrypt aeadSeal
          (Encryption.derive_key sha256 pbkdf2 username password uuid) nonce plaintext).1)
      (Encryption.encrypt aeadSeal
        (Encryption.derive_key sha256 pbkdf2 username password uuid) nonce plaintext).2
      (Encryption.encrypt aeadSeal
        (Encryption.derive_key sha256 pbkdf2 username password uuid) nonce plaintext).1
      = .error .decryption) := by
  have hu : Encryption.get_uuid (Encryption.metaDataNew uuid nonce) = uuid := by
    unfold Encryption.get_uuid Encryption.metaDataNew
    rw [← huuid]
    exact List.take_left uuid nonce
  have hn : Encryption.get_nonce (Encryption.metaDataNew uuid nonce) = nonce := by
    unfold Encryption.get_nonce Encryption.metaDataNew
    rw [← huuid]
    exact List.drop_left uuid nonce
  constructor
  · unfold Encryption.decrypt Encryption.load Encryption.encrypt
    simp only [Encryption.derive_key]
    rw [hu, hn]
    rw [hseal]
  · unfold Encryption.decrypt Encryption.load Encryption.encrypt
    simp only [Encryption.derive_key]
    rw [hu, hn]
    rw [hauth _ _ _ _ _ (fun hk => hkdf hk.symm)]

/-- Toy AEAD used to witness C6: the sealed message is the key (length
prefixed) followed by the plaintext; opening checks the key prefix. -/
def toySeal (k _n _a m : Bytes) : Bytes := (k.length :: k) ++ m

/-- Opening for `toySeal`. -/
def toyOpn (k _n _a c : Bytes) : Option Bytes :=
  if c.take (k.length + 1) = k.length :: k then some (c.drop (k.length + 1)) else none

theorem toySeal_opn (k n a m : Bytes) : toyOpn k n a (toySeal k n a m) = some m := by
  unfold toySeal toyOpn
  have ht : ((k.length :: k) ++ m).take (k.length + 1) = k.length :: k := by
    simp
  have hd : ((k.length :: k) ++ m).drop (k.length + 1) = m := by
    simp
  rw [ht, hd, if_pos rfl]

theorem toyOpn_auth (k k' n a m : Bytes) (hne : k ≠ k') :
    toyOpn k n a (toySeal k' n a m) = none := by
  unfold toySeal toyOpn
  rw [if_neg]
  intro h
  rw [List.cons_append, List.take_succ_cons] at h
  injection h with h1 h2
  rw [← h1] at h2
  rw [show (k' ++ m).take k'.length = k' from by
    simp] at h2
  exact hne h2.symm

/-- Witness for C6 at a concrete toy AEAD and KDF (`pbkdf2 _ pw = pw`):
password `[2]`, wrong password `[3]`. -/
theorem encrypt_decrypt_roundtrip_witness :
    (Encryption.decrypt toyOpn
      (Encryption.load (fun s => s) (fun _ pw => pw) [1] [2]
        (Encryption.encrypt toySeal
          (Encryption.derive_key (fun s => s) (fun _ pw => pw) [1] [2]
            (List.replicate 32 0)) [9, 9] [4, 5]).1)
      (Encryption.encrypt toySeal
        (Encryption.derive_key (fun s => s) (fun _ pw => pw) [1] [2]
          (List.replicate 32 0)) [9, 9] [4, 5]).2
      (Encryption.encrypt toySeal
        (Encryption.derive_key (fun s => s) (fun _ pw => pw) [1] [2]
          (List.replicate 32 0)) [9, 9] [4, 5]).1
      = .ok [4, 5])
    ∧ (Encryption.decrypt toyOpn
      (Encryption.load (fun s => s) (fun _ pw => pw) [1] [3]
        (Encryption.encrypt toySeal
          (Encryption.derive_key (fun s => s) (fun _ pw => pw) [1] [2]
            (List.replicate 32 0)) [9, 9] [4, 5]).1)
      (Encryption.encrypt toySeal
        (Encryption.derive_key (fun s => s) (fun _ pw => pw) [1] [2]
          (List.replicate 32 0)) [9, 9] [4, 5]).2
      (Encryption.encrypt toySeal
        (Encryption.derive_key (fun s => s) (fun _ pw => pw) [1] [2]
          (List.replicate 32 0)) [9, 9] [4, 5]).1
      = .error .decryption) :=
  encrypt_decrypt_roundtrip toySeal toyOpn (fun s => s) (fun _ pw => pw)
    [1] [2] [3] (List.replicate 32 0) [9, 9] [4, 5]
    toySeal_opn toyOpn_auth (by decide) (by decide)

/-! ### Vote ingestion endpoint (`src/api/server.rs`) -/

/-- Model of the actix handler `vote` (`POST /vote`): once the JSON body has
deserialized into a `Vote`, the handler logs it and answers
`HttpResponse::Ok()` — it performs no verification, no double-vote check and
never touches any ledger (the server `State` holds only the election config). -/
def vote_handler (_v : Vote) : Nat := 200

/-- C1 (code bug): the endpoint answers 200 even for a vote that fails
verification — here a vote whose timestamp 99 lies outside the window
[0, 10], rejected by `Vote::verify` as `InvalidTimestmap` for every choice of
the token and signature verifiers — instead of the specified 422; no 409
double-vote path exists at all. -/
theorem vote_handler_accepts_invalid_vote :
    vote_handler ⟨[1], 0, ⟨99, 0⟩, [], [2]⟩ = 200 ∧
    Vote.verify (fun _ _ _ => true) (fun _ _ _ => true)
      ⟨[1], 0, ⟨99, 0⟩, [], [2]⟩ [] ⟨⟨0, 0⟩, ⟨10, 0⟩⟩ =
      .err (.invalidTimestamp ⟨99, 0⟩) ∧
    Vote.verify (fun _ _ _ => false) (fun _ _ _ => false)
      ⟨[1], 0, ⟨99, 0⟩, [], [2]⟩ [] ⟨⟨0, 0⟩, ⟨10, 0⟩⟩ =
      .err (.invalidTimestamp ⟨99, 0⟩) := by
  refine ⟨rfl, by decide, by decide⟩

end DigitalVoting
